import Mathlib

/-!
# Verification of `process_orders.py`

Shallow embedding of the order-processing script: a loader feeds two pure
aggregators (`process_customers`, `process_items`) whose results a writer
serializes.  Python strings are Lean `String`s, Python floats are `ℚ`
(the script only compares prices to `0.0` and stores them, never computes
with them), Python dicts are association lists in insertion order, and a
compiled regex is abstracted as its match-at-start predicate
`String → Bool`, with the default pattern `^\d{3}-\d{3}-\d{4}$` given a
concrete executable semantics.
-/

namespace ProcessOrders

/-- Python's `str.strip()` removes leading and trailing whitespace. -/
def pyStrip (s : String) : String :=
  ⟨((s.data.dropWhile Char.isWhitespace).reverse.dropWhile Char.isWhitespace).reverse⟩

/-- A compiled regex `re.Pattern`, abstracted as the predicate
`fun s => bool(pattern.match(s))`: does the pattern match at the start of `s`? -/
def Pattern : Type := String → Bool

/-- Does a character list have exactly the shape
three digits, hyphen, three digits, hyphen, four digits? -/
def phoneCore : List Char → Bool
  | [a, b, c, h₁, d, e, f, h₂, g, h, i, j] =>
      a.isDigit && b.isDigit && c.isDigit && h₁ == '-' &&
      d.isDigit && e.isDigit && f.isDigit && h₂ == '-' &&
      g.isDigit && h.isDigit && i.isDigit && j.isDigit
  | _ => false

/-- The default compiled pattern `^\d{3}-\d{3}-\d{4}$` from `main`
(`config.get('phone_pattern', r'^\d{3}-\d{3}-\d{4}$')`), as Python `re`
interprets it on a `str`: anchored at both ends, except that `$` also
matches just before a single trailing newline. -/
def default_phone_pattern : Pattern := fun s =>
  phoneCore s.data ||
    (match s.data.getLast? with
     | some c => c == '\n' && phoneCore s.data.dropLast
     | none => false)

/-- `validate_phone_number(phone, pattern)`:
`return bool(pattern.match(phone.strip()))`. -/
def validate_phone_number (phone : String) (pattern : Pattern) : Bool :=
  pattern (pyStrip phone)

/-- A line item `{ name, price }`; `item.get('name', '')` and
`item.get('price', 0.0)` make missing fields default to `""` and `0`. -/
structure LineItem where
  name : String := ""
  price : ℚ := 0
  deriving DecidableEq, Repr

/-- An order record `{ phone, name, items }`; `order.get(..., default)`
makes missing fields default to `""` / `[]`. -/
structure Order where
  phone : String := ""
  name : String := ""
  items : List LineItem := []
  deriving DecidableEq, Repr

/-- Association-list lookup, modelling `d[k]` / `k in d` on a Python dict
kept as an insertion-ordered list of pairs. -/
def alookup {β : Type} (k : String) : List (String × β) → Option β
  | [] => none
  | (a, b) :: rest => if a = k then some b else alookup k rest

/-- The filter of `process_customers`: keep an order when its stripped
phone and name are nonempty and the phone validates. -/
def keepCust (pat : Pattern) (o : Order) : Bool :=
  (pyStrip o.phone != "") && (pyStrip o.name != "") &&
    validate_phone_number (pyStrip o.phone) pat

/-- One iteration of the `for order in orders` loop of `process_customers`:
insert `(phone, name)` only when the order passes the filter and the phone
is not yet a key. -/
def custStep (pat : Pattern) (customers : List (String × String)) (o : Order) :
    List (String × String) :=
  if keepCust pat o then
    if alookup (pyStrip o.phone) customers = none then
      customers ++ [(pyStrip o.phone, pyStrip o.name)]
    else customers
  else customers

/-- `process_customers(orders, phone_pattern)`: fold `custStep` over the
orders starting from the empty dict. -/
def process_customers (orders : List Order) (phone_pattern : Pattern) :
    List (String × String) :=
  orders.foldl (custStep phone_pattern) []

/-- One value of the items dict: `{'price': ..., 'orders': ...}`. -/
structure ItemRec where
  price : ℚ
  orders : ℕ
  deriving DecidableEq, Repr

/-- The body applied to one kept occurrence of `item_name` in
`process_items`: `if items[item_name]['price'] == 0.0: ... price = item_price`
then `items[item_name]['orders'] += 1`. -/
def updItem (price : ℚ) (r : ItemRec) : ItemRec :=
  { price := if r.price = 0 then price else r.price, orders := r.orders + 1 }

/-- `defaultdict` access-and-update: on a missing key the entry
`{'price': 0.0, 'orders': 0}` is materialized at the end before the update;
on a present key the first binding is updated in place. -/
def insertItem (items : List (String × ItemRec)) (n : String) (p : ℚ) :
    List (String × ItemRec) :=
  match items with
  | [] => [(n, updItem p { price := 0, orders := 0 })]
  | (k, v) :: rest =>
      if k = n then (k, updItem p v) :: rest else (k, v) :: insertItem rest n p

/-- One iteration of the `for item in order_items` loop of `process_items`:
strip the name, drop the occurrence if it is empty, otherwise update. -/
def processItem (items : List (String × ItemRec)) (it : LineItem) :
    List (String × ItemRec) :=
  if pyStrip it.name = "" then items else insertItem items (pyStrip it.name) it.price

/-- `process_items(orders)`: fold over orders, and over each order's line
items, starting from the empty `defaultdict`. -/
def process_items (orders : List Order) : List (String × ItemRec) :=
  orders.foldl (fun items o => o.items.foldl processItem items) []

/-- All line items of a list of orders, in iteration order. -/
def allItems (orders : List Order) : List LineItem :=
  (orders.map Order.items).flatten

/-- The occurrences that `process_items` books under key `k`: line items
whose stripped name equals `k`, in iteration order. -/
def occs (orders : List Order) (k : String) : List LineItem :=
  (allItems orders).filter (fun it => pyStrip it.name == k)

/-- The stored price after seeing a list of occurrence prices: the first
nonzero one, or `0` when every occurrence's price is `0`. -/
def firstNonzeroPrice : List ℚ → ℚ
  | [] => 0
  | p :: ps => if p = 0 then firstNonzeroPrice ps else p

/-- Left-biased choice on options, the shape `alookup` takes on appended
dicts. -/
def orElseO {α : Type} : Option α → Option α → Option α
  | some a, _ => some a
  | none, b => b

/-- The net effect on one dict entry of a list of kept occurrences. -/
def applyOccs (o : Option ItemRec) (ms : List LineItem) : Option ItemRec :=
  ms.foldl (fun o it => some (updItem it.price (o.getD { price := 0, orders := 0 }))) o

/-- How a price evolves through occurrences: once nonzero it is frozen. -/
def priceFold (c : ℚ) (l : List ℚ) : ℚ :=
  l.foldl (fun c p => if c = 0 then p else c) c

/-- Insertion step of the key-sort `json.dump` performs under
`sort_keys=True`. -/
def insertSorted {β : Type} (p : String × β) : List (String × β) → List (String × β)
  | [] => [p]
  | q :: rest => if p.1 ≤ q.1 then p :: q :: rest else q :: insertSorted p rest

/-- Sort an association list by key. -/
def sortByKey {β : Type} (l : List (String × β)) : List (String × β) :=
  l.foldr insertSorted []

/-- The sequence of key/value pairs `save_json` writes out: sorted by key
when `sort_output` is set, insertion order otherwise. -/
def serializeDoc {β : Type} (m : List (String × β)) (sort_output : Bool) : List (String × β) :=
  if sort_output then sortByKey m else m

/-- Python-dict insertion: a repeated key replaces the stored value in
place, a fresh key is appended. -/
def replacePair {β : Type} : List (String × β) → (String × β) → List (String × β)
  | [], p => [p]
  | q :: rest, p => if q.1 = p.1 then p :: rest else q :: replacePair rest p

/-- Re-loading a serialized object: `json.load` folds the written pairs
into a fresh dict. -/
def loadDict {β : Type} (l : List (String × β)) : List (String × β) :=
  l.foldl replacePair []

/-- A configuration that passed `load_config`'s check for the required
keys `output_customers` and `output_items`. -/
structure Config where
  output_customers : String
  output_items : String
  sort_output : Bool := true
  deriving DecidableEq, Repr

/-- What `load_orders` finds at the input path: a parsed list of orders, a
missing file, or content that is not valid JSON. -/
inductive LoadOutcome where
  | found (orders : List Order)
  | notFound
  | badJson
  deriving DecidableEq, Repr

/-- `load_orders(filename)`: the parsed list, or `sys.exit(1)` after
printing an error message, modelled as `Except`. -/
def load_orders : LoadOutcome → Except String (List Order)
  | .found os => .ok os
  | .notFound => .error "Error: File not found."
  | .badJson => .error "Error: Invalid JSON in file."

/-- The observable outcome of one run of `main`: the exit status, the
output files that were created (name together with the key/value sequence
written into each), and the error message printed, if any. -/
structure RunResult where
  exitCode : ℕ
  customersFile : Option (String × List (String × String))
  itemsFile : Option (String × List (String × ItemRec))
  message : Option String

/-- `main`, with its environment made explicit: the validated config (or
`none` when `load_config` failed), what the input path holds, the compiled
phone pattern, and whether each of the two `save_json` calls succeeds.
`load_config` runs first, then `load_orders`, and only then are the two
aggregates computed and written — customers file first, items file second;
any failure is `sys.exit(1)`. -/
def main_run (config : Option Config) (input : LoadOutcome) (pat : Pattern)
    (write1Ok write2Ok : Bool) : RunResult :=
  match config with
  | none =>
      { exitCode := 1, customersFile := none, itemsFile := none,
        message := some "Error: Configuration file not found." }
  | some cfg =>
    match load_orders input with
    | .error msg =>
        { exitCode := 1, customersFile := none, itemsFile := none, message := some msg }
    | .ok orders =>
        let customers := process_customers orders pat
        let items := process_items orders
        if write1Ok then
          if write2Ok then
            { exitCode := 0,
              customersFile := some (cfg.output_customers, serializeDoc customers cfg.sort_output),
              itemsFile := some (cfg.output_items, serializeDoc items cfg.sort_output),
              message := none }
          else
            { exitCode := 1,
              customersFile := some (cfg.output_customers, serializeDoc customers cfg.sort_output),
              itemsFile := none,
              message := some "Error writing file." }
        else
          { exitCode := 1, customersFile := none, itemsFile := none,
            message := some "Error writing file." }

/-! ## Association-list lemmas -/

@[simp] theorem orElseO_none {α : Type} (b : Option α) : orElseO none b = b := rfl

@[simp] theorem orElseO_some {α : Type} (a : α) (b : Option α) :
    orElseO (some a) b = some a := rfl

@[simp] theorem orElseO_none_right {α : Type} (a : Option α) : orElseO a none = a := by
  cases a <;> rfl

@[simp] theorem alookup_nil {β : Type} (k : String) : alookup k ([] : List (String × β)) = none :=
  rfl

@[simp] theorem alookup_cons {β : Type} (k a : String) (b : β) (l : List (String × β)) :
    alookup k ((a, b) :: l) = if a = k then some b else alookup k l := rfl

theorem alookup_append_single {β : Type} (k q : String) (n : β) (l : List (String × β)) :
    alookup k (l ++ [(q, n)]) = orElseO (alookup k l) (if q = k then some n else none) := by
  induction l with
  | nil => simp
  | cons p l ih =>
      obtain ⟨a, b⟩ := p
      by_cases h : a = k <;> simp [h, ih]

theorem mem_of_alookup_eq_some {β : Type} {k : String} {v : β} {l : List (String × β)}
    (h : alookup k l = some v) : (k, v) ∈ l := by
  induction l with
  | nil => simp at h
  | cons p l ih =>
      obtain ⟨a, b⟩ := p
      by_cases ha : a = k
      · subst ha
        simp at h
        simp [h]
      · simp [ha] at h
        exact List.mem_cons_of_mem _ (ih h)

theorem alookup_eq_none_iff {β : Type} {k : String} {l : List (String × β)} :
    alookup k l = none ↔ k ∉ l.map Prod.fst := by
  induction l with
  | nil => simp
  | cons p l ih =>
      obtain ⟨a, b⟩ := p
      by_cases ha : a = k
      · subst ha
        simp
      · have hka : k ≠ a := fun h => ha h.symm
        simp [ha, ih, hka]

theorem alookup_eq_some_of_mem {β : Type} {k : String} {v : β} {l : List (String × β)}
    (hnd : (l.map Prod.fst).Nodup) (hmem : (k, v) ∈ l) : alookup k l = some v := by
  induction l with
  | nil => simp at hmem
  | cons p l ih =>
      obtain ⟨a, b⟩ := p
      rw [List.map_cons, List.nodup_cons] at hnd
      obtain ⟨hna, hnd2⟩ := hnd
      rcases List.mem_cons.mp hmem with heq | htail
      · injection heq with h1 h2
        subst h1
        subst h2
        simp
      · have hak : a ≠ k := by
          rintro rfl
          have hmm2 := List.mem_map_of_mem Prod.fst htail
          exact hna hmm2
        simp [hak, ih hnd2 htail]

/-! ## `process_customers`: first occurrence wins -/

/-- Folding `custStep` over further orders refines the accumulator lookups
from the left: an existing binding is kept, a missing one is filled by the
first further order that passes the filter with that phone. -/
theorem custFold_lookup (pat : Pattern) (p : String) (os : List Order) :
    ∀ acc : List (String × String),
      alookup p (os.foldl (custStep pat) acc) =
        orElseO (alookup p acc)
          ((os.find? (fun o => keepCust pat o && (pyStrip o.phone == p))).map
            (fun o => pyStrip o.name)) := by
  induction os with
  | nil => intro acc; simp
  | cons o os ih =>
      intro acc
      rw [List.foldl_cons, ih]
      by_cases hkeep : keepCust pat o
      · by_cases hphone : pyStrip o.phone = p
        · have hfind : (o :: os).find? (fun o => keepCust pat o && (pyStrip o.phone == p)) =
              some o := by
            simp [List.find?_cons, hkeep, hphone]
          rw [hfind]
          by_cases hmem : alookup (pyStrip o.phone) acc = none
          · have hstep : custStep pat acc o = acc ++ [(pyStrip o.phone, pyStrip o.name)] := by
              simp [custStep, hkeep, hmem]
            rw [hstep, alookup_append_single]
            rw [hphone] at hmem
            simp [hmem, hphone]
          · have hstep : custStep pat acc o = acc := by
              simp [custStep, hkeep, hmem]
            rw [hstep]
            rw [hphone] at hmem
            obtain ⟨v, hv⟩ := Option.ne_none_iff_exists'.mp hmem
            simp [hv]
        · have hfind : (o :: os).find? (fun o => keepCust pat o && (pyStrip o.phone == p)) =
              os.find? (fun o => keepCust pat o && (pyStrip o.phone == p)) := by
            simp [List.find?_cons, hphone]
          rw [hfind]
          by_cases hmem : alookup (pyStrip o.phone) acc = none
          · have hstep : custStep pat acc o = acc ++ [(pyStrip o.phone, pyStrip o.name)] := by
              simp [custStep, hkeep, hmem]
            rw [hstep, alookup_append_single]
            simp [hphone]
          · have hstep : custStep pat acc o = acc := by
              simp [custStep, hkeep, hmem]
            rw [hstep]
      · have hstep : custStep pat acc o = acc := by
          simp [custStep, hkeep]
        have hfind : (o :: os).find? (fun o => keepCust pat o && (pyStrip o.phone == p)) =
            os.find? (fun o => keepCust pat o && (pyStrip o.phone == p)) := by
          simp [List.find?_cons, hkeep]
        rw [hstep, hfind]

/-- Every binding produced by the customer fold was either already in the
accumulator or comes, filtered and stripped, from some order. -/
theorem mem_custFold (pat : Pattern) (k n : String) (os : List Order) :
    ∀ acc, (k, n) ∈ os.foldl (custStep pat) acc →
      (k, n) ∈ acc ∨
        ∃ o, keepCust pat o = true ∧ pyStrip o.phone = k ∧ pyStrip o.name = n := by
  induction os with
  | nil => intro acc h; exact Or.inl h
  | cons o os ih =>
      intro acc h
      rcases ih (custStep pat acc o) h with hacc | hex
      · by_cases hkeep : keepCust pat o
        · by_cases hmem : alookup (pyStrip o.phone) acc = none
          · have hstep : custStep pat acc o = acc ++ [(pyStrip o.phone, pyStrip o.name)] := by
              simp [custStep, hkeep, hmem]
            rw [hstep] at hacc
            rcases List.mem_append.mp hacc with h1 | h2
            · exact Or.inl h1
            · simp at h2
              exact Or.inr ⟨o, hkeep, h2.1.symm, h2.2.symm⟩
          · have hstep : custStep pat acc o = acc := by simp [custStep, hkeep, hmem]
            rw [hstep] at hacc
            exact Or.inl hacc
        · have hstep : custStep pat acc o = acc := by simp [custStep, hkeep]
          rw [hstep] at hacc
          exact Or.inl hacc
      · exact Or.inr hex

/-- The customer fold keeps the keys of the dict free of duplicates: a
binding is appended only after `phone not in customers` succeeded. -/
theorem custFold_nodupKeys (pat : Pattern) (os : List Order) :
    ∀ acc, (acc.map Prod.fst).Nodup →
      ((os.foldl (custStep pat) acc).map Prod.fst).Nodup := by
  induction os with
  | nil => intro acc h; exact h
  | cons o os ih =>
      intro acc hacc
      apply ih
      by_cases hkeep : keepCust pat o
      · by_cases hmem : alookup (pyStrip o.phone) acc = none
        · have hstep : custStep pat acc o = acc ++ [(pyStrip o.phone, pyStrip o.name)] := by
            simp [custStep, hkeep, hmem]
          rw [hstep, List.map_append, List.nodup_append]
          refine ⟨hacc, by simp, ?_⟩
          intro x hx
          simp
          rintro rfl
          exact (alookup_eq_none_iff.mp hmem) hx
        · have hstep : custStep pat acc o = acc := by simp [custStep, hkeep, hmem]
          rw [hstep]; exact hacc
      · have hstep : custStep pat acc o = acc := by simp [custStep, hkeep]
        rw [hstep]; exact hacc

/-- The keys of the customer mapping never repeat. -/
theorem process_customers_nodupKeys (os : List Order) (pat : Pattern) :
    ((process_customers os pat).map Prod.fst).Nodup :=
  custFold_nodupKeys pat os [] (by simp)

/-- C1: the customer mapping sends each phone `p` to the stripped name of
the *first* order in input order that passes the filter with stripped phone
`p` (or to nothing, when no such order exists); later orders with the same
phone never overwrite the stored name, even when the name differs. -/
theorem process_customers_first_occurrence_wins (os : List Order) (pat : Pattern) (p : String) :
    alookup p (process_customers os pat) =
      (os.find? (fun o => keepCust pat o && (pyStrip o.phone == p))).map
        (fun o => pyStrip o.name) := by
  have h := custFold_lookup pat p os []
  simpa [process_customers] using h

/-- C4: every key of the customer mapping passes `validate_phone_number`
under the active pattern, no key is the empty string, and no stored name is
the empty string. -/
theorem process_customers_keys_validated (os : List Order) (pat : Pattern) (k n : String)
    (h : (k, n) ∈ process_customers os pat) :
    validate_phone_number k pat = true ∧ k ≠ "" ∧ n ≠ "" := by
  rcases mem_custFold pat k n os [] h with hnil | ⟨o, hkeep, hk, hn⟩
  · simp at hnil
  · simp [keepCust, Bool.and_eq_true] at hkeep
    obtain ⟨⟨h1, h2⟩, h3⟩ := hkeep
    subst hk
    subst hn
    exact ⟨h3, h1, h2⟩

/-- C10: appending further orders never removes a customer entry and never
changes an already-recorded name: every key/value pair of
`process_customers xs` is still a pair of `process_customers (xs ++ ys)`. -/
theorem process_customers_append_monotone (xs ys : List Order) (pat : Pattern) (k n : String)
    (h : (k, n) ∈ process_customers xs pat) :
    (k, n) ∈ process_customers (xs ++ ys) pat := by
  have hl : alookup k (process_customers xs pat) = some n :=
    alookup_eq_some_of_mem (process_customers_nodupKeys xs pat) h
  have h2 : alookup k (process_customers (xs ++ ys) pat) = some n := by
    unfold process_customers at hl ⊢
    rw [List.foldl_append, custFold_lookup pat k ys (xs.foldl (custStep pat) []), hl]
    simp
  exact mem_of_alookup_eq_some h2

/-! ## `process_items`: lookup characterization -/

@[simp] theorem alookup_insertItem (k n : String) (p : ℚ) (items : List (String × ItemRec)) :
    alookup k (insertItem items n p) =
      if n = k then some (updItem p ((alookup n items).getD { price := 0, orders := 0 }))
      else alookup k items := by
  induction items with
  | nil => by_cases h : n = k <;> simp [insertItem, h]
  | cons q items ih =>
      obtain ⟨a, b⟩ := q
      by_cases han : a = n
      · subst han
        by_cases hak : a = k <;> simp [insertItem, hak]
      · by_cases hak : a = k
        · subst hak
          have hnk : n ≠ a := fun h => han h.symm
          simp [insertItem, han, hnk]
        · simp [insertItem, han, hak, ih]

theorem alookup_processItem (k : String) (it : LineItem) (items : List (String × ItemRec)) :
    alookup k (processItem items it) =
      if pyStrip it.name = k ∧ k ≠ "" then
        some (updItem it.price ((alookup k items).getD { price := 0, orders := 0 }))
      else alookup k items := by
  by_cases hempty : pyStrip it.name = ""
  · by_cases hk : pyStrip it.name = k
    · have : k = "" := hk ▸ hempty
      simp [processItem, hempty, this]
    · have hcond : ¬("" = k ∧ ¬k = "") := fun h => hk (hempty.trans h.1)
      simp [processItem, hempty, hk, hcond]
  · by_cases hk : pyStrip it.name = k
    · subst hk
      simp [processItem, hempty]
    · simp [processItem, hempty, hk]

/-- Folding `processItem` over line items changes the entry at a nonempty
key `k` exactly by the occurrences whose stripped name is `k`. -/
theorem itemsFold_lookup (k : String) (hk : k ≠ "") (its : List LineItem) :
    ∀ acc, alookup k (its.foldl processItem acc) =
      applyOccs (alookup k acc) (its.filter (fun it => pyStrip it.name == k)) := by
  induction its with
  | nil => intro acc; rfl
  | cons it its ih =>
      intro acc
      rw [List.foldl_cons, ih]
      by_cases hname : pyStrip it.name = k
      · rw [alookup_processItem]
        simp [hname, hk, applyOccs]
      · rw [alookup_processItem]
        simp [hname, applyOccs]

/-- The nested fold of `process_items` is the flat fold over all line
items in iteration order. -/
theorem itemsFold_eq_flat (os : List Order) :
    ∀ acc, os.foldl (fun items o => o.items.foldl processItem items) acc =
      (allItems os).foldl processItem acc := by
  induction os with
  | nil => intro acc; rfl
  | cons o os ih =>
      intro acc
      rw [List.foldl_cons, ih]
      simp [allItems, List.foldl_append]

theorem priceFold_ne_zero (l : List ℚ) : ∀ c : ℚ, c ≠ 0 → priceFold c l = c := by
  induction l with
  | nil => intro c _; rfl
  | cons p l ih =>
      intro c hc
      simp only [priceFold, List.foldl_cons, if_neg hc]
      exact ih c hc

theorem priceFold_zero (l : List ℚ) : priceFold 0 l = firstNonzeroPrice l := by
  induction l with
  | nil => rfl
  | cons p l ih =>
      by_cases hp : p = 0
      · subst hp
        simp only [priceFold, List.foldl_cons, if_pos rfl, firstNonzeroPrice]
        simpa [priceFold] using ih
      · simp only [priceFold, List.foldl_cons, if_pos rfl, firstNonzeroPrice, if_neg hp]
        exact priceFold_ne_zero l p hp

theorem applyOccs_some (ms : List LineItem) :
    ∀ r : ItemRec, applyOccs (some r) ms =
      some { price := priceFold r.price (ms.map LineItem.price),
             orders := r.orders + ms.length } := by
  induction ms with
  | nil => intro r; simp [applyOccs, priceFold]
  | cons m ms ih =>
      intro r
      simp only [applyOccs, List.foldl_cons, Option.getD_some]
      rw [show (ms.foldl (fun o it => some (updItem it.price
            (o.getD { price := 0, orders := 0 }))) (some (updItem m.price r))) =
          applyOccs (some (updItem m.price r)) ms from rfl, ih]
      simp only [updItem, List.map_cons, List.length_cons, priceFold, List.foldl_cons,
        Option.some.injEq, ItemRec.mk.injEq]
      exact ⟨trivial, by omega⟩

theorem alookup_empty_fold (its : List LineItem) :
    ∀ acc, alookup "" acc = none → alookup "" (its.foldl processItem acc) = none := by
  induction its with
  | nil => intro acc h; exact h
  | cons it its ih =>
      intro acc h
      rw [List.foldl_cons]
      apply ih
      rw [alookup_processItem]
      simp [h]

/-- The empty string is never a key of the items dict. -/
theorem alookup_empty_process_items (os : List Order) :
    alookup "" (process_items os) = none := by
  unfold process_items
  rw [itemsFold_eq_flat]
  exact alookup_empty_fold (allItems os) [] rfl

/-- Master characterization: at a nonempty key `k`, the items dict holds an
entry exactly when `k` has occurrences, its price is the first nonzero
occurrence price (else 0), and its count is the number of occurrences. -/
theorem process_items_lookup (os : List Order) (k : String) (hk : k ≠ "") :
    alookup k (process_items os) =
      match occs os k with
      | [] => none
      | m :: ms => some { price := firstNonzeroPrice ((m :: ms).map LineItem.price),
                          orders := (m :: ms).length } := by
  unfold process_items
  rw [itemsFold_eq_flat, itemsFold_lookup k hk (allItems os) []]
  rw [show (allItems os).filter (fun it => pyStrip it.name == k) = occs os k from rfl]
  cases hocc : occs os k with
  | nil => rfl
  | cons m ms =>
      rw [show applyOccs (alookup k []) (m :: ms) =
            applyOccs (some (updItem m.price { price := 0, orders := 0 })) ms from rfl]
      rw [applyOccs_some]
      simp only [updItem, List.map_cons, List.length_cons, firstNonzeroPrice]
      by_cases hp : m.price = 0
      · simp [hp, priceFold_zero]
        omega
      · simp [hp, priceFold_ne_zero _ _ hp]
        omega

/-- C2: the `orders` count stored under any key of the items mapping is the
number of line-item occurrences, across all orders in iteration order, whose
stripped name equals that key; since no key is empty, occurrences with
empty stripped name are counted nowhere. -/
theorem process_items_orders_count (os : List Order) (k : String) (r : ItemRec)
    (h : alookup k (process_items os) = some r) :
    k ≠ "" ∧ r.orders = (allItems os).countP (fun it => pyStrip it.name == k) := by
  have hk : k ≠ "" := by
    rintro rfl
    rw [alookup_empty_process_items] at h
    exact Option.noConfusion h
  refine ⟨hk, ?_⟩
  have hm := process_items_lookup os k hk
  rw [h] at hm
  cases hocc : occs os k with
  | nil =>
      rw [hocc] at hm
      exact absurd hm (by simp)
  | cons m ms =>
      rw [hocc] at hm
      injection hm with hm2
      rw [hm2, List.countP_eq_length_filter,
        show (allItems os).filter (fun it => pyStrip it.name == k) = occs os k from rfl, hocc]

/-- C3: the price stored under any key of the items mapping is the price of
the first occurrence of that stripped name whose price is nonzero (price-0
occurrences before it do not stick), and `0` when every occurrence has
price `0`; later occurrences never change a stored nonzero price. -/
theorem process_items_price_first_nonzero (os : List Order) (k : String) (r : ItemRec)
    (h : alookup k (process_items os) = some r) :
    r.price = firstNonzeroPrice ((occs os k).map LineItem.price) := by
  have hk : k ≠ "" := by
    rintro rfl
    rw [alookup_empty_process_items] at h
    exact Option.noConfusion h
  have hm := process_items_lookup os k hk
  rw [h] at hm
  cases hocc : occs os k with
  | nil =>
      rw [hocc] at hm
      exact absurd hm (by simp)
  | cons m ms =>
      rw [hocc] at hm
      injection hm with hm2
      rw [hm2]

/-- A binding of `insertItem` either predates the call or has just been
written through `updItem`. -/
theorem mem_insertItem {k n : String} {v : ItemRec} {p : ℚ} :
    ∀ {items : List (String × ItemRec)}, (k, v) ∈ insertItem items n p →
      (k, v) ∈ items ∨ ∃ w : ItemRec, v = updItem p w := by
  intro items
  induction items with
  | nil =>
      intro h
      simp [insertItem] at h
      exact Or.inr ⟨_, h.2⟩
  | cons q items ih =>
      obtain ⟨a, b⟩ := q
      intro h
      by_cases han : a = n
      · subst han
        simp only [insertItem, if_pos rfl] at h
        rcases List.mem_cons.mp h with heq | htail
        · injection heq with h1 h2
          exact Or.inr ⟨b, h2⟩
        · exact Or.inl (List.mem_cons_of_mem _ htail)
      · simp only [insertItem, if_neg han] at h
        rcases List.mem_cons.mp h with heq | htail
        · exact Or.inl (heq ▸ List.mem_cons_self _ _)
        · rcases ih htail with h1 | h2
          · exact Or.inl (List.mem_cons_of_mem _ h1)
          · exact Or.inr h2

theorem itemsFold_orders_pos (its : List LineItem) :
    ∀ acc : List (String × ItemRec), (∀ p ∈ acc, 1 ≤ (Prod.snd p).orders) →
      ∀ p ∈ its.foldl processItem acc, 1 ≤ (Prod.snd p).orders := by
  induction its with
  | nil => intro acc h; exact h
  | cons it its ih =>
      intro acc hacc
      rw [List.foldl_cons]
      apply ih
      intro p hp
      by_cases hempty : pyStrip it.name = ""
      · rw [show processItem acc it = acc from by simp [processItem, hempty]] at hp
        exact hacc p hp
      · rw [show processItem acc it = insertItem acc (pyStrip it.name) it.price from by
          simp [processItem, hempty]] at hp
        obtain ⟨a, b⟩ := p
        rcases mem_insertItem hp with h1 | ⟨w, h2⟩
        · exact hacc _ h1
        · simp only [h2, updItem]
          omega

/-- C9: every entry of the items mapping has an `orders` count of at least
1 — the `defaultdict` materializes entries with `orders = 0`, but only ever
on an occurrence that immediately increments them. -/
theorem process_items_count_positive (os : List Order) (k : String) (r : ItemRec)
    (h : (k, r) ∈ process_items os) : 1 ≤ r.orders := by
  unfold process_items at h
  rw [itemsFold_eq_flat] at h
  exact itemsFold_orders_pos (allItems os) [] (by simp) (k, r) h

theorem filter_foldl_processItem (its : List LineItem) :
    ∀ acc, (its.filter (fun it => pyStrip it.name != "")).foldl processItem acc =
      its.foldl processItem acc := by
  induction its with
  | nil => intro acc; rfl
  | cons it its ih =>
      intro acc
      by_cases h : pyStrip it.name = ""
      · have hstep : processItem acc it = acc := by simp [processItem, h]
        simp [List.filter_cons, h, ih, hstep]
      · simp [List.filter_cons, h, ih]

/-- C6: a line item whose name strips to the empty string is excluded from
the items mapping entirely — removing all such line items from the input
leaves `process_items` unchanged, so they create no key, record no price
and increment no count anywhere. -/
theorem process_items_drops_empty_names (os : List Order) :
    process_items (os.map (fun o =>
        { o with items := o.items.filter (fun it => pyStrip it.name != "") })) =
      process_items os := by
  unfold process_items
  suffices h : ∀ acc, (os.map (fun o =>
      { o with items := o.items.filter (fun it => pyStrip it.name != "") })).foldl
        (fun items o => o.items.foldl processItem items) acc =
      os.foldl (fun items o => o.items.foldl processItem items) acc from h []
  induction os with
  | nil => intro acc; rfl
  | cons o os ih =>
      intro acc
      simp only [List.map_cons, List.foldl_cons]
      rw [filter_foldl_processItem, ih]

/-! ## The default phone pattern on stripped strings -/

theorem head?_dropWhile {p : Char → Bool} :
    ∀ {l : List Char} {a : Char}, (l.dropWhile p).head? = some a → p a = false := by
  intro l
  induction l with
  | nil => intro a h; simp at h
  | cons x xs ih =>
      intro a h
      by_cases hx : p x
      · rw [List.dropWhile_cons, if_pos hx] at h
        exact ih h
      · rw [List.dropWhile_cons, if_neg hx] at h
        simp at h
        rw [← h]
        exact Bool.eq_false_iff.mpr hx

/-- The last character of a stripped string is never whitespace. -/
theorem pyStrip_getLast_not_space {s : String} {c : Char}
    (h : (pyStrip s).data.getLast? = some c) : c.isWhitespace = false := by
  unfold pyStrip at h
  rw [List.getLast?_reverse] at h
  exact head?_dropWhile h

/-- C5: the phone validator with the default pattern `^\d{3}-\d{3}-\d{4}$`
accepts a string exactly when, after stripping leading and trailing
whitespace, it consists of three digits, a hyphen, three digits, a hyphen
and four digits with nothing before or after; it is a total function, so
malformed input yields `false` rather than an error. -/
theorem validate_phone_number_default_iff (s : String) :
    validate_phone_number s default_phone_pattern = true ↔
      phoneCore (pyStrip s).data = true := by
  unfold validate_phone_number default_phone_pattern
  constructor
  · intro h
    rcases Bool.or_eq_true _ _ |>.mp h with h1 | h2
    · exact h1
    · exfalso
      cases hlast : (pyStrip s).data.getLast? with
      | none => rw [hlast] at h2; exact Bool.noConfusion h2
      | some c =>
          rw [hlast] at h2
          have hc : c = '\n' := by
            have := Bool.and_eq_true _ _ |>.mp h2
            exact eq_of_beq this.1
          have hws := pyStrip_getLast_not_space hlast
          rw [hc] at hws
          exact Bool.noConfusion hws
  · intro h
    rw [h]
    rfl

/-! ## Serialization round trip -/

theorem perm_insertSorted {β : Type} (p : String × β) :
    ∀ l : List (String × β), List.Perm (insertSorted p l) (p :: l) := by
  intro l
  induction l with
  | nil => rfl
  | cons q rest ih =>
      by_cases h : p.1 ≤ q.1
      · rw [insertSorted, if_pos h]
      · rw [insertSorted, if_neg h]
        exact (ih.cons q).trans (List.Perm.swap p q rest)

theorem perm_sortByKey {β : Type} (l : List (String × β)) : List.Perm (sortByKey l) l := by
  induction l with
  | nil => rfl
  | cons p rest ih =>
      rw [sortByKey, List.foldr_cons]
      exact (perm_insertSorted p _).trans (ih.cons p)

theorem replacePair_of_not_mem {β : Type} {p : String × β} :
    ∀ {l : List (String × β)}, p.1 ∉ l.map Prod.fst → replacePair l p = l ++ [p] := by
  intro l
  induction l with
  | nil => intro _; rfl
  | cons q rest ih =>
      intro h
      rw [List.map_cons] at h
      have h1 : q.1 ≠ p.1 := by
        intro heq
        exact h (by rw [← heq]; exact List.mem_cons_self _ _)
      have h2 : p.1 ∉ rest.map Prod.fst := fun hm => h (List.mem_cons_of_mem _ hm)
      rw [replacePair, if_neg h1, ih h2]
      rfl

theorem loadDict_of_nodupKeys {β : Type} :
    ∀ (l acc : List (String × β)), (((acc ++ l).map Prod.fst).Nodup) →
      l.foldl replacePair acc = acc ++ l := by
  intro l
  induction l with
  | nil => intro acc _; simp
  | cons p rest ih =>
      intro acc hnd
      rw [List.foldl_cons]
      have hnotin : p.1 ∉ acc.map Prod.fst := by
        intro hmem
        rw [List.map_append, List.nodup_append] at hnd
        exact hnd.2.2 hmem (by simp)
      rw [replacePair_of_not_mem hnotin]
      have := ih (acc ++ [p]) (by simpa using hnd)
      rw [this]
      simp

theorem alookup_congr_perm {β : Type} {l l' : List (String × β)}
    (hnd : (l.map Prod.fst).Nodup) (hperm : List.Perm l l') (k : String) :
    alookup k l = alookup k l' := by
  have hnd' : (l'.map Prod.fst).Nodup := ((hperm.map Prod.fst).nodup_iff).mp hnd
  cases h' : alookup k l' with
  | some v =>
      exact alookup_eq_some_of_mem hnd (hperm.mem_iff.mpr (mem_of_alookup_eq_some h'))
  | none =>
      rw [alookup_eq_none_iff]
      intro hmem
      exact alookup_eq_none_iff.mp h' ((hperm.map Prod.fst).mem_iff.mp hmem)

/-- Writing a mapping with unique keys and reading it back changes no
lookup, whatever the sort setting. -/
theorem round_trip_of_nodupKeys {β : Type} (m : List (String × β))
    (hnd : (m.map Prod.fst).Nodup) (so : Bool) (k : String) :
    alookup k (loadDict (serializeDoc m so)) = alookup k m := by
  cases so with
  | false =>
      rw [serializeDoc, if_neg (by simp), loadDict, loadDict_of_nodupKeys m [] (by simpa using hnd)]
      simp
  | true =>
      rw [serializeDoc, if_pos rfl]
      have hperm : List.Perm (sortByKey m) m := perm_sortByKey m
      have hnd' : ((sortByKey m).map Prod.fst).Nodup := ((hperm.map Prod.fst).nodup_iff).mpr hnd
      rw [loadDict, loadDict_of_nodupKeys (sortByKey m) [] (by simpa using hnd')]
      simp only [List.nil_append]
      exact alookup_congr_perm hnd' hperm k

/-- Bindings of `insertItem` carry a key of `items` or the inserted key. -/
theorem keys_insertItem {x n : String} {p : ℚ} :
    ∀ {items : List (String × ItemRec)}, x ∈ (insertItem items n p).map Prod.fst →
      x ∈ items.map Prod.fst ∨ x = n := by
  intro items
  induction items with
  | nil =>
      intro h
      simp [insertItem] at h
      exact Or.inr h
  | cons q items ih =>
      obtain ⟨a, b⟩ := q
      intro h
      by_cases han : a = n
      · subst han
        have hstep : insertItem ((a, b) :: items) a p = (a, updItem p b) :: items := by
          simp [insertItem]
        rw [hstep, List.map_cons] at h
        exact Or.inl h
      · have hstep : insertItem ((a, b) :: items) n p = (a, b) :: insertItem items n p := by
          simp [insertItem, han]
        rw [hstep, List.map_cons] at h
        rcases List.mem_cons.mp h with h1 | h2
        · exact Or.inl (by simp [h1])
        · rcases ih h2 with h3 | h4
          · exact Or.inl (List.mem_cons_of_mem _ h3)
          · exact Or.inr h4

theorem nodupKeys_insertItem {n : String} {p : ℚ} :
    ∀ {items : List (String × ItemRec)}, (items.map Prod.fst).Nodup →
      ((insertItem items n p).map Prod.fst).Nodup := by
  intro items
  induction items with
  | nil => intro _; simp [insertItem]
  | cons q items ih =>
      obtain ⟨a, b⟩ := q
      intro hnd
      rw [List.map_cons, List.nodup_cons] at hnd
      by_cases han : a = n
      · subst han
        have hstep : insertItem ((a, b) :: items) a p = (a, updItem p b) :: items := by
          simp [insertItem]
        rw [hstep, List.map_cons, List.nodup_cons]
        exact hnd
      · have hstep : insertItem ((a, b) :: items) n p = (a, b) :: insertItem items n p := by
          simp [insertItem, han]
        rw [hstep, List.map_cons, List.nodup_cons]
        refine ⟨?_, ih hnd.2⟩
        intro hmem
        rcases keys_insertItem hmem with h1 | h2
        · exact hnd.1 h1
        · exact han h2

theorem itemsFold_nodupKeys (its : List LineItem) :
    ∀ acc : List (String × ItemRec), (acc.map Prod.fst).Nodup →
      ((its.foldl processItem acc).map Prod.fst).Nodup := by
  induction its with
  | nil => intro acc h; exact h
  | cons it its ih =>
      intro acc hacc
      rw [List.foldl_cons]
      apply ih
      by_cases hempty : pyStrip it.name = ""
      · rw [show processItem acc it = acc from by simp [processItem, hempty]]
        exact hacc
      · rw [show processItem acc it = insertItem acc (pyStrip it.name) it.price from by
          simp [processItem, hempty]]
        exact nodupKeys_insertItem hacc

/-- The keys of the items mapping never repeat. -/
theorem process_items_nodupKeys (os : List Order) :
    ((process_items os).map Prod.fst).Nodup := by
  unfold process_items
  rw [itemsFold_eq_flat]
  exact itemsFold_nodupKeys (allItems os) [] (by simp)

/-- C8: serializing either aggregate mapping with the writer and re-loading
the result yields a mapping with exactly the same key/value associations,
whether or not `sort_output` sorted the keys. -/
theorem save_json_round_trip (os : List Order) (pat : Pattern) (so : Bool) (k : String) :
    alookup k (loadDict (serializeDoc (process_customers os pat) so)) =
      alookup k (process_customers os pat) ∧
    alookup k (loadDict (serializeDoc (process_items os) so)) =
      alookup k (process_items os) :=
  ⟨round_trip_of_nodupKeys _ (process_customers_nodupKeys os pat) so k,
   round_trip_of_nodupKeys _ (process_items_nodupKeys os) so k⟩

/-! ## The run model of `main` -/

/-- C7: when the input source is missing or its content is not parseable,
the run exits with status 1 after printing a message, and neither output
file is created — `load_orders` aborts the run before either `save_json`
call. -/
theorem main_load_failure_no_outputs (config : Option Config) (input : LoadOutcome)
    (pat : Pattern) (w1 w2 : Bool)
    (h : input = LoadOutcome.notFound ∨ input = LoadOutcome.badJson) :
    (main_run config input pat w1 w2).exitCode = 1 ∧
    (main_run config input pat w1 w2).customersFile = none ∧
    (main_run config input pat w1 w2).itemsFile = none ∧
    (main_run config input pat w1 w2).message.isSome = true := by
  rcases h with rfl | rfl <;> cases config <;> simp [main_run, load_orders]

/-! ## Concrete witnesses -/

/-- Witness for C2 at the spec's two-order scenario: "Tea" occurs twice. -/
theorem process_items_orders_count_witness :
    "Tea" ≠ "" ∧ ({ price := 2, orders := 2 } : ItemRec).orders =
      (allItems [{ phone := "555-123-4567", name := "Ann",
                   items := [{ name := "Tea", price := 2 }] },
                 { phone := "555-123-4567", name := "Bob",
                   items := [{ name := "Tea", price := 3 }] }]).countP
        (fun it => pyStrip it.name == "Tea") :=
  process_items_orders_count
    [{ phone := "555-123-4567", name := "Ann", items := [{ name := "Tea", price := 2 }] },
     { phone := "555-123-4567", name := "Bob", items := [{ name := "Tea", price := 3 }] }]
    "Tea" { price := 2, orders := 2 } (by decide)

/-- Witness for C3: a price-0 occurrence of "Tea" precedes one priced 2;
the stored price is 2, the first nonzero occurrence price. -/
theorem process_items_price_first_nonzero_witness :
    ({ price := 2, orders := 3 } : ItemRec).price =
      firstNonzeroPrice ((occs [{ items := [{ name := "Tea", price := 0 },
                                            { name := "Tea", price := 2 },
                                            { name := "Tea", price := 9 }] }] "Tea").map
        LineItem.price) :=
  process_items_price_first_nonzero
    [{ items := [{ name := "Tea", price := 0 }, { name := "Tea", price := 2 },
                 { name := "Tea", price := 9 }] }]
    "Tea" { price := 2, orders := 3 } (by decide)

/-- Witness for C4 at a single validated order. -/
theorem process_customers_keys_validated_witness :
    validate_phone_number "555-123-4567" default_phone_pattern = true ∧
      "555-123-4567" ≠ "" ∧ "Ann" ≠ "" :=
  process_customers_keys_validated [{ phone := " 555-123-4567 ", name := " Ann " }]
    default_phone_pattern "555-123-4567" "Ann" (by decide)

/-- Witness for C7 at a missing input file with an otherwise healthy run. -/
theorem main_load_failure_no_outputs_witness :
    (main_run (some { output_customers := "customers.json", output_items := "items.json" })
        LoadOutcome.notFound default_phone_pattern true true).exitCode = 1 ∧
    (main_run (some { output_customers := "customers.json", output_items := "items.json" })
        LoadOutcome.notFound default_phone_pattern true true).customersFile = none ∧
    (main_run (some { output_customers := "customers.json", output_items := "items.json" })
        LoadOutcome.notFound default_phone_pattern true true).itemsFile = none ∧
    (main_run (some { output_customers := "customers.json", output_items := "items.json" })
        LoadOutcome.notFound default_phone_pattern true true).message.isSome = true :=
  main_load_failure_no_outputs
    (some { output_customers := "customers.json", output_items := "items.json" })
    LoadOutcome.notFound default_phone_pattern true true (Or.inl rfl)

/-- Witness for C9: the entry for "Tea" counts its two occurrences. -/
theorem process_items_count_positive_witness :
    1 ≤ ({ price := 2, orders := 2 } : ItemRec).orders :=
  process_items_count_positive
    [{ items := [{ name := "Tea", price := 2 }, { name := "Tea", price := 3 }] }]
    "Tea" { price := 2, orders := 2 } (by decide)

/-- Witness for C10: Ann's entry survives appending Bob's order with the
same phone. -/
theorem process_customers_append_monotone_witness :
    ("555-123-4567", "Ann") ∈
      process_customers
        ([{ phone := "555-123-4567", name := "Ann" }] ++
          [{ phone := "555-123-4567", name := "Bob" }]) default_phone_pattern :=
  process_customers_append_monotone
    [{ phone := "555-123-4567", name := "Ann" }]
    [{ phone := "555-123-4567", name := "Bob" }]
    default_phone_pattern "555-123-4567" "Ann" (by decide)

end ProcessOrders
